import Mathlib

/-!
Shallow embedding of the repository `Molecule_Generation` (notebook
`src/gnn_vae.ipynb`), a VAE-GNN molecule generator.

Tensors are modelled as lists of real numbers: a 1-D tensor is a `Vec`, a
2-D tensor (row-major) is a `Mat`.  Exceptions raised by torch / PyTorch
Geometric (shape mismatches, index errors, the `edge_index` validation done
by `MessagePassing.propagate`) are modelled with `Option`: `none` is a raised
exception.  Randomness is passed explicitly: the Bernoulli draws consumed by
`nn.Dropout` in training mode are a stream `keep : ℕ → Bool` together with an
offset that advances by the number of entries the dropout layer consumed, and
the Gaussian draws of `reparameterize` / `generate_molecule` are explicit
arguments.
-/

noncomputable section

/-- A 1-D real tensor (one row of a 2-D tensor). -/
abbrev Vec := List ℝ

/-- A 2-D real tensor, stored as its list of rows. -/
abbrev Mat := List Vec

/-- Dot product of two vectors (used for `(Q_i * K_j).sum(dim=-1)` and for the
matrix-vector products inside `nn.Linear`). -/
def dot (a b : Vec) : ℝ := (List.zipWith (· * ·) a b).sum

/-- Parameters of a `torch.nn.Linear(din, dout)` layer: `w` is the
`dout × din` weight matrix (list of rows), `b` the bias of length `dout`. -/
structure LinearP where
  w : Mat
  b : Vec

/-- Shape well-formedness of the parameters of `nn.Linear(din, dout)`,
guaranteed by the layer's constructor. -/
abbrev LinearP.wf (p : LinearP) (din dout : ℕ) : Prop :=
  p.w.length = dout ∧ (∀ r ∈ p.w, r.length = din) ∧ p.b.length = dout

/-- Batched application of `nn.Linear` to a 2-D input, one row per sample:
`y = x Wᵀ + b`.  torch raises a shape error when a row's length does not
match the weight's input dimension; this is the `none` branch. -/
def LinearP.appMat (p : LinearP) (x : Mat) : Option Mat :=
  if x.all (fun r => p.w.all (fun wr => wr.length == r.length)) then
    some (x.map (fun r => List.zipWith (fun wr bi => dot wr r + bi) p.w p.b))
  else none

/-- `torch.softmax` along one axis of length `l.length`:
`softmax(l)_i = exp l_i / Σ_j exp l_j`. -/
def softmax (l : Vec) : Vec :=
  l.map (fun s => Real.exp s / (l.map Real.exp).sum)

/-- Parameters of `nn.LayerNorm(c)`: elementwise affine weight `gamma` and
bias `beta`, both of length `c` (initialized to ones and zeros). -/
structure LayerNormP where
  gamma : Vec
  beta : Vec

/-- The `eps` of `nn.LayerNorm` (torch default `1e-5`). -/
def lnEps : ℝ := 1 / 100000

/-- `nn.LayerNorm` applied to one row: subtract the mean, divide by the
square root of the biased variance plus `eps`, then apply the elementwise
affine transform. -/
def LayerNormP.row (p : LayerNormP) (y : Vec) : Vec :=
  let m : ℝ := y.sum / y.length
  let v : ℝ := (y.map (fun t => (t - m) ^ 2)).sum / y.length
  List.zipWith (fun t gb => (t - m) / Real.sqrt (v + lnEps) * Prod.fst gb + Prod.snd gb)
    y (p.gamma.zip p.beta)

/-- `nn.LayerNorm(c)` on a 2-D input normalizes each row; torch raises a
shape error unless every row has length `c = gamma.length`. -/
def LayerNormP.appMat (p : LayerNormP) (y : Mat) : Option Mat :=
  if y.all (fun r => r.length == p.gamma.length) then some (y.map p.row)
  else none

/-- `edge_index` as built by `torch.tensor(pairs, dtype=torch.long).t()`:
the tensor's shape together with its columns, each column a
(source, target) pair.  `torch.tensor([])` is a 1-D empty tensor of shape
`[0]`, and `.t()` leaves a tensor of dimension `< 2` unchanged, so an empty
pair list yields shape `[0]`, not `[2, 0]`. -/
structure EdgeIndex where
  shape : List ℕ
  cols : List (ℕ × ℕ)

/-- The input validation performed by `MessagePassing.propagate` on
`edge_index`: it must be a 2-D long tensor with `size(0) = 2`; otherwise
propagate raises. -/
def checkInput (t : EdgeIndex) : Bool :=
  match t.shape with
  | [2, _] => true
  | _ => false

/-- One entry of `nn.Dropout(p)` in the functional form used here: in
training mode entry `k` of the input is zeroed when the Bernoulli draw
`keep k` is false and scaled by `1/(1-p)` otherwise; in eval mode dropout is
the identity and consumes no randomness. -/
def dropoutVal (training : Bool) (p : ℝ) (keep : ℕ → Bool) (k : ℕ) (s : ℝ) : ℝ :=
  if training then (if keep k then s / (1 - p) else 0) else s

/-- Parameters and configuration of one `GraphVAE` message-passing layer
(the repository's attention layer `class GraphVAE(MessagePassing)`). -/
structure GraphVAE where
  heads : ℕ
  out_channels : ℕ
  lin_q : LinearP
  lin_k : LinearP
  lin_v : LinearP
  lin_out : LinearP
  p_drop : ℝ
  norm : LayerNormP

/-- Shape well-formedness of a `GraphVAE(in_channels, out_channels, heads)`
layer, as guaranteed by its `__init__`. -/
abbrev GraphVAE.wf (P : GraphVAE) (din : ℕ) : Prop :=
  P.lin_q.wf din (P.heads * P.out_channels) ∧
  P.lin_k.wf din (P.heads * P.out_channels) ∧
  P.lin_v.wf din (P.heads * P.out_channels) ∧
  P.lin_out.wf (P.heads * P.out_channels) P.out_channels ∧
  P.norm.gamma.length = P.out_channels ∧ P.norm.beta.length = P.out_channels

/-- `.view(-1, heads, out_channels)` applied to one row of length
`heads * out_channels`: the row is cut into `heads` consecutive chunks of
length `out_channels`. -/
def viewHeads (heads c : ℕ) (row : Vec) : Mat :=
  (List.range heads).map (fun h => (row.drop (h * c)).take c)

/-- The all-zero `heads × out_channels` block: the aggregate a node with no
incoming edges receives from `aggr='add'` (scatter-add over no messages). -/
def zeroHeads (P : GraphVAE) : Mat :=
  List.replicate P.heads (List.replicate P.out_channels (0 : ℝ))

/-- Entrywise sum of two `heads × out_channels` blocks (one step of the
`aggr='add'` scatter-sum). -/
def matAdd (a b : Mat) : Mat :=
  List.zipWith (fun ra rb => List.zipWith (· + ·) ra rb) a b

/-- `GraphVAE.message(Q_i, K_j, V_j)` for the edge at position `e` of the
edge list: per head, the unnormalized score `(Q_i · K_j) / out_channels**0.5`;
`torch.softmax(score, dim=1)` normalizes the `E × heads × 1` score tensor
along its `heads` axis, i.e. across the heads of this one edge; dropout then
rescales each of the `heads` normalized scores (entry `off + e*heads + h` of
the Bernoulli stream), and the result is `score * V_j`, the score of each
head broadcast over that head's value vector. -/
def GraphVAE.message (P : GraphVAE) (training : Bool) (keep : ℕ → Bool) (off e : ℕ)
    (Qi Kj Vj : Mat) : Mat :=
  let raw : Vec := List.zipWith (fun qh kh => dot qh kh / Real.sqrt (P.out_channels : ℝ)) Qi Kj
  let sm : Vec := softmax raw
  let dropped : Vec := sm.enum.map (fun hs =>
    dropoutVal training P.p_drop keep (off + e * P.heads + hs.1) hs.2)
  List.zipWith (fun s v => v.map (fun t => s * t)) dropped Vj

/-- `self.propagate(edge_index, Q=Q, K=K, V=V)` of the `MessagePassing` base
class with `aggr='add'`: after validating `edge_index` and the edge indices
(an out-of-range index raises), every edge `(j, i)` (column `(source,
target)` of `edge_index`) produces `message(Q_i, K_j, V_j)`, and the messages
are scatter-summed over the target index into an output with one
`heads × out_channels` block per node. -/
def GraphVAE.propagate (P : GraphVAE) (training : Bool) (keep : ℕ → Bool) (off : ℕ)
    (Q K V : List Mat) (t : EdgeIndex) : Option (List Mat) :=
  if checkInput t ∧ ∀ ji ∈ t.cols, ji.1 < K.length ∧ ji.1 < V.length ∧ ji.2 < Q.length then
    some ((List.range Q.length).map (fun i =>
      (((t.cols.enum.filter (fun ec => ec.2.2 == i)).map (fun ec =>
          P.message training keep off ec.1
            (Q.getD ec.2.2 []) (K.getD ec.2.1 []) (V.getD ec.2.1 []))).foldr
        matAdd (zeroHeads P))))
  else none

/-- Broadcast row addition of `out + x` in torch semantics: rows of equal
length add elementwise, a length-1 row broadcasts against the other row.  The
rows handed to this function have passed the shape test of `residAdd`. -/
def addBroadcast (a b : Vec) : Vec :=
  if a.length = b.length then List.zipWith (· + ·) a b
  else if b.length = 1 then a.map (· + b.headD 0)
  else b.map (fun t => a.headD 0 + t)

/-- `out + x` on 2-D tensors with the same number of rows: torch raises a
shape error unless, rowwise, the lengths agree or one of them is 1. -/
def residAdd (o x : Mat) : Option Mat :=
  if o.length = x.length ∧
      ∀ p ∈ o.zip x, p.1.length = p.2.length ∨ p.2.length = 1 ∨ p.1.length = 1 then
    some (List.zipWith addBroadcast o x)
  else none

/-- `GraphVAE.forward(x, edge_index)`: project the node features to
`Q`, `K`, `V`, reshape to `heads × out_channels` per node, propagate, flatten
the heads back (`out.view(-1, heads * out_channels)`), apply `lin_out`, add
the residual `+ x`, and layer-normalize.  Returns the refined node features
together with the advanced dropout-stream offset (`E * heads` Bernoulli
entries are consumed in training mode, none in eval mode). -/
def GraphVAE.forward (P : GraphVAE) (training : Bool) (keep : ℕ → Bool) (off : ℕ)
    (x : Mat) (t : EdgeIndex) : Option (Mat × ℕ) := do
  let q ← P.lin_q.appMat x
  let k ← P.lin_k.appMat x
  let v ← P.lin_v.appMat x
  let Q := q.map (viewHeads P.heads P.out_channels)
  let K := k.map (viewHeads P.heads P.out_channels)
  let V := v.map (viewHeads P.heads P.out_channels)
  let agg ← P.propagate training keep off Q K V t
  let flat := agg.map List.flatten
  let o ← P.lin_out.appMat flat
  let res ← residAdd o x
  let y ← P.norm.appMat res
  pure (y, off + (if training then t.cols.length * P.heads else 0))

/-- An RDKit molecule as `mol_to_graph` reads it through `GetAtoms` and
`GetBonds`: the atomic number of each atom in index order, and the
`(GetBeginAtomIdx, GetEndAtomIdx)` pair of each bond. -/
structure Molecule where
  atoms : List ℕ
  bonds : List (ℕ × ℕ)

/-- RDKit's guarantee on a molecule object: every bond's endpoints are
indices of actual atoms. -/
abbrev Molecule.wf (m : Molecule) : Prop :=
  ∀ b ∈ m.bonds, b.1 < m.atoms.length ∧ b.2 < m.atoms.length

/-- The node-feature tensor `x` built by `mol_to_graph`: one row
`[atom.GetAtomicNum()]` per atom. -/
def mol_to_graph_x (m : Molecule) : Mat :=
  m.atoms.map (fun (z : ℕ) => ([(z : ℝ)] : Vec))

/-- The directed edge pairs appended by `mol_to_graph`: `[i, j]` followed by
`[j, i]` for every bond `(i, j)`. -/
def molEdges (bonds : List (ℕ × ℕ)) : List (ℕ × ℕ) :=
  bonds.flatMap (fun ij => [(ij.1, ij.2), (ij.2, ij.1)])

/-- The `edge_index` tensor built by `mol_to_graph`:
`torch.tensor(edge_index, dtype=torch.long).t().contiguous()`.  For a
molecule without bonds the pair list is empty and `torch.tensor([])` is a
1-D tensor of shape `[0]` (which `.t()` leaves unchanged); otherwise the
result has shape `[2, E]`. -/
def mol_to_graph_edgeIndex (m : Molecule) : EdgeIndex :=
  let pairs := molEdges m.bonds
  { shape := if pairs.isEmpty then [0] else [2, pairs.length], cols := pairs }

/-- Parameters of the `VAE_GNN` module: the stack of `GraphVAE` layers and
the four VAE-specific linear layers. -/
structure VAE_GNN where
  layers : List GraphVAE
  fc_mu : LinearP
  fc_logvar : LinearP
  fc_decode : LinearP
  fc_out : LinearP

/-- The shapes `VAE_GNN.__init__(in_channels, hidden_channels, latent_dim,
num_layers)` produces: every layer is `GraphVAE(c, hidden_channels)` with the
constructor defaults `heads=4` and `dropout=0.1`, the first with
`c = in_channels` and the rest with `c = hidden_channels`, and the four fully
connected layers have the stated dimensions. -/
abbrev VAE_GNN.wf (M : VAE_GNN) (in_channels hidden latent : ℕ) : Prop :=
  (∀ L ∈ M.layers, L.heads = 4 ∧ L.p_drop = 1 / 10 ∧ L.out_channels = hidden) ∧
  (M.layers.head?.elim True (fun L => L.wf in_channels)) ∧
  (∀ L ∈ M.layers.tail, L.wf hidden) ∧
  M.fc_mu.wf hidden latent ∧ M.fc_logvar.wf hidden latent ∧
  M.fc_decode.wf latent hidden ∧ M.fc_out.wf hidden 1

/-- `VAE_GNN.encode(x, edge_index)`: run the layer stack sequentially, then
the two projections `fc_mu` and `fc_logvar`.  The dropout-stream offset is
threaded through the layers and returned. -/
def VAE_GNN.encode (M : VAE_GNN) (training : Bool) (keep : ℕ → Bool)
    (x : Mat) (t : EdgeIndex) (off : ℕ) : Option ((Mat × Mat) × ℕ) := do
  let ho ← M.layers.foldlM
    (fun (acc : Mat × ℕ) L => L.forward training keep acc.2 acc.1 t) (x, off)
  let mu ← M.fc_mu.appMat ho.1
  let logvar ← M.fc_logvar.appMat ho.1
  pure ((mu, logvar), ho.2)

/-- `VAE_GNN.reparameterize(mu, logvar)` with the draw of
`torch.randn_like(std)` passed explicitly as `eps`:
`mu + eps * exp(0.5 * logvar)`, entrywise. -/
def VAE_GNN.reparameterize (mu logvar eps : Mat) : Mat :=
  List.zipWith (fun mr p =>
      List.zipWith (fun m le => m + le.2 * Real.exp (0.5 * le.1)) mr (p.1.zip p.2))
    mu (logvar.zip eps)

/-- `VAE_GNN.decode(z)`: `fc_out(relu(fc_decode(z)))`. -/
def VAE_GNN.decode (M : VAE_GNN) (z : Mat) : Option Mat := do
  let h ← M.fc_decode.appMat z
  let hr := h.map (fun r => r.map (fun u => max u 0))
  M.fc_out.appMat hr

/-- The value computed in the last line of `VAE_GNN.forward` (the decoded
reconstruction `out = self.decode(z)`), which `forward` then discards. -/
def VAE_GNN.forwardOut (M : VAE_GNN) (training : Bool) (keep : ℕ → Bool)
    (eps : Mat) (x : Mat) (t : EdgeIndex) (off : ℕ) : Option Mat := do
  let mo ← M.encode training keep x t off
  let z := VAE_GNN.reparameterize mo.1.1 mo.1.2 eps
  M.decode z

/-- `VAE_GNN.forward(x, edge_index)`: computes `encode`, `reparameterize`
and `decode`, but the Python method body has no `return` statement, so on a
normal run it returns `None` (modelled as `some ()`); `none` models a raised
exception propagating out of the body. -/
def VAE_GNN.forward (M : VAE_GNN) (training : Bool) (keep : ℕ → Bool)
    (eps : Mat) (x : Mat) (t : EdgeIndex) (off : ℕ) : Option Unit := do
  let mo ← M.encode training keep x t off
  let z := VAE_GNN.reparameterize mo.1.1 mo.1.2 eps
  let _out ← M.decode z
  pure ()

/-- Two successive calls of `VAE_GNN.encode` on the same input, with the
random-number stream threaded from the first call into the second (a fixed
seed fixes the stream `keep` once; the second call starts where the first
stopped consuming).  Returns the two `(mu, logvar)` results. -/
def VAE_GNN.encodeTwice (M : VAE_GNN) (training : Bool) (keep : ℕ → Bool)
    (x : Mat) (t : EdgeIndex) : Option ((Mat × Mat) × (Mat × Mat)) := do
  let r1 ← M.encode training keep x t 0
  let r2 ← M.encode training keep x t r1.2
  pure (r1.1, r2.1)

/-- Mathematical value of
`F.binary_cross_entropy_with_logits(recon_x, x, reduction='sum')`:
`Σ_i (log(1 + exp z_i) - z_i * t_i)`; torch raises unless the two tensors
have the same shape. -/
def bceWithLogitsSum (z t : Vec) : Option ℝ :=
  if z.length = t.length then
    some ((List.zipWith (fun zi ti => Real.log (1 + Real.exp zi) - zi * ti) z t).sum)
  else none

/-- `loss_function(recon_x, x, mu, logvar)`:
`BCE + β * KL` with `β = 1.0` and
`KL = -0.5 * torch.sum(1 + logvar - mu.pow(2) - logvar.exp())` (the tensors
are modelled flattened into vectors; `torch.sum` sums every entry). -/
def loss_function (recon_x x mu logvar : Vec) : Option ℝ := do
  let BCE ← bceWithLogitsSum recon_x x
  let β : ℝ := 1
  let KL : ℝ :=
    -0.5 * (List.zipWith (fun l m => 1 + l - m ^ 2 - Real.exp l) logvar mu).sum
  pure (BCE + β * KL)

/-- The mutable state of the `VAE_GNN` module object: its parameters and its
train/eval flag (`model.train()` / `model.eval()`). -/
structure ModelState where
  params : VAE_GNN
  training : Bool

/-- `generate_molecule(model, num_samples)`: calls `model.eval()`, then under
`torch.no_grad()` decodes `num_samples` independent standard-normal latent
draws (`noise k` is the `k`-th draw of `torch.randn(1, latent_dim)`).
Returns the list of decoded samples together with the module state after the
call. -/
def generate_molecule (s : ModelState) (num_samples : ℕ) (noise : ℕ → Mat) :
    List (Option Mat) × ModelState :=
  let s2 : ModelState := { params := s.params, training := false }
  ((List.range num_samples).map (fun k => s2.params.decode (noise k)), s2)

/-- Modelled from the spec's description of the attention normalization
(`spec.md` §4.1): scores are "normalized per destination node via softmax
over its incoming edges", per head, and value vectors are "weighted by
normalized scores, summed over incoming edges".  This is the behaviour the
spec claims for `GraphVAE.message`/`propagate`, to be compared with the
code's `GraphVAE.propagate`. -/
def specAttentionAggregate (P : GraphVAE) (Q K V : List Mat)
    (cols : List (ℕ × ℕ)) : List Mat :=
  (List.range Q.length).map (fun i =>
    let inc := cols.filter (fun ji => ji.2 == i)
    let raws : List Vec := inc.map (fun ji =>
      List.zipWith (fun qh kh => dot qh kh / Real.sqrt (P.out_channels : ℝ))
        (Q.getD i []) (K.getD ji.1 []))
    let denom : ℕ → ℝ := fun h => (raws.map (fun r => Real.exp (r.getD h 0))).sum
    ((inc.zip raws).map (fun p =>
        (List.range P.heads).map (fun h =>
          ((V.getD p.1.1 []).getD h []).map
            (fun u => Real.exp (p.2.getD h 0) / denom h * u)))).foldr
      matAdd (zeroHeads P))

/-- The attention aggregation the code actually performs, written
edge-by-edge: for each incoming edge of node `i`, the raw per-head scores
are normalized by a softmax across the heads of that one edge, and the
weighted value vectors are summed over the incoming edges (eval mode:
dropout inactive). -/
def headSoftmaxAggregate (P : GraphVAE) (Q K V : List Mat)
    (cols : List (ℕ × ℕ)) : List Mat :=
  (List.range Q.length).map (fun i =>
    ((cols.filter (fun ji => ji.2 == i)).map (fun ji =>
        let raw : Vec := List.zipWith
          (fun qh kh => dot qh kh / Real.sqrt (P.out_channels : ℝ))
          (Q.getD ji.2 []) (K.getD ji.1 [])
        List.zipWith (fun s v => v.map (fun u => s * u)) (softmax raw)
          (V.getD ji.1 []))).foldr
      matAdd (zeroHeads P))

/-- A `GraphVAE(in, out_channels=1, heads=1)` configuration for comparing the
two normalizations at the `propagate` level (which reads only `heads`,
`out_channels` and `p_drop`; the linear projections are applied before
`propagate` and are irrelevant to it). -/
def cxAttnP : GraphVAE :=
  { heads := 1, out_channels := 1,
    lin_q := ⟨[], []⟩, lin_k := ⟨[], []⟩, lin_v := ⟨[], []⟩, lin_out := ⟨[], []⟩,
    p_drop := 1 / 10, norm := ⟨[], []⟩ }

/-- Projected query/key blocks for three nodes, one head, one channel, all
scores zero. -/
def cxQ : List Mat := [[[0]], [[0]], [[0]]]

/-- Projected value blocks for three nodes: every value vector is `[1]`. -/
def cxV : List Mat := [[[1]], [[1]], [[1]]]

/-- Edge index of the 3-node path `0 - 1 - 2` (two bonds, stored in both
directions), as `mol_to_graph` lays it out. -/
def pathT : EdgeIndex := { shape := [2, 4], cols := [(0, 1), (1, 0), (1, 2), (2, 1)] }

/-- A `GraphVAE(2, 3, heads=1)` layer with zero weights: input feature
dimension 2, output dimension 3. -/
def cx2P : GraphVAE :=
  { heads := 1, out_channels := 3,
    lin_q := ⟨[[0, 0], [0, 0], [0, 0]], [0, 0, 0]⟩,
    lin_k := ⟨[[0, 0], [0, 0], [0, 0]], [0, 0, 0]⟩,
    lin_v := ⟨[[0, 0], [0, 0], [0, 0]], [0, 0, 0]⟩,
    lin_out := ⟨[[0, 0, 0], [0, 0, 0], [0, 0, 0]], [0, 0, 0]⟩,
    p_drop := 1 / 10, norm := ⟨[1, 1, 1], [0, 0, 0]⟩ }

/-- Two nodes with two-dimensional features (D_in = 2). -/
def cx2x : Mat := [[0, 0], [0, 0]]

/-- Edge index of a single bond between nodes 0 and 1, both directions. -/
def cx2T : EdgeIndex := { shape := [2, 2], cols := [(0, 1), (1, 0)] }

/-- A `GraphVAE(1, 2, heads=1)` layer with zero weights (D_in = 1 broadcasts
against out_channels = 2). -/
def w2P : GraphVAE :=
  { heads := 1, out_channels := 2,
    lin_q := ⟨[[0], [0]], [0, 0]⟩, lin_k := ⟨[[0], [0]], [0, 0]⟩,
    lin_v := ⟨[[0], [0]], [0, 0]⟩,
    lin_out := ⟨[[0, 0], [0, 0]], [0, 0]⟩,
    p_drop := 1 / 10, norm := ⟨[1, 1], [0, 0]⟩ }

/-- Two nodes with one-dimensional features. -/
def w2x : Mat := [[0], [0]]

/-- One `GraphVAE(1, 2)` layer as `VAE_GNN.__init__` builds it (constructor
defaults `heads=4`, `dropout=0.1`): zero query/key weights make every raw
attention score 0, `lin_v`'s bias makes every value block
`[[1,0],[0,0],[0,0],[0,0]]`, and `lin_out` maps the aggregate `a` to
`(a₀, -a₀)`. -/
def L7 : GraphVAE :=
  { heads := 4, out_channels := 2,
    lin_q := ⟨[[0], [0], [0], [0], [0], [0], [0], [0]], [0, 0, 0, 0, 0, 0, 0, 0]⟩,
    lin_k := ⟨[[0], [0], [0], [0], [0], [0], [0], [0]], [0, 0, 0, 0, 0, 0, 0, 0]⟩,
    lin_v := ⟨[[0], [0], [0], [0], [0], [0], [0], [0]], [1, 0, 0, 0, 0, 0, 0, 0]⟩,
    lin_out := ⟨[[1, 0, 0, 0, 0, 0, 0, 0], [-1, 0, 0, 0, 0, 0, 0, 0]], [0, 0]⟩,
    p_drop := 1 / 10, norm := ⟨[1, 1], [0, 0]⟩ }

/-- A `VAE_GNN(in_channels=1, hidden_channels=2, latent_dim=1, num_layers=1)`
instance with the fixed parameters used to exercise the encode path:
`fc_mu` reads the first refined feature of each node. -/
def M7 : VAE_GNN :=
  { layers := [L7],
    fc_mu := ⟨[[1, 0]], [0]⟩, fc_logvar := ⟨[[0, 0]], [0]⟩,
    fc_decode := ⟨[[0], [0]], [0, 0]⟩, fc_out := ⟨[[0, 0]], [0]⟩ }

/-- Node features of the fixed small graph: three nodes, feature `[0]` each. -/
def x7 : Mat := [[0], [0], [0]]

/-- A realization of the dropout Bernoulli stream under a fixed seed: the
first 16 draws keep, all later draws drop. -/
def keep7 : ℕ → Bool := fun n => decide (n < 16)

/-- A molecule with a single atom and no bonds (`Chem.MolFromSmiles("C")`:
one carbon, hydrogens implicit). -/
def molC : Molecule := { atoms := [6], bonds := [] }

/-- Carbon monoxide: two atoms, one bond. -/
def molCO : Molecule := { atoms := [6, 8], bonds := [(0, 1)] }

end



/-! ## Helper lemmas -/

theorem getD_of_lt {α : Type} (l : List α) (d : α) {i : ℕ} (h : i < l.length) :
    l.getD i d = l[i] := by
  rw [List.getD_eq_getElem?_getD, List.getElem?_eq_getElem h]
  rfl

theorem getD_mem_of_lt {α : Type} {l : List α} {i : ℕ} (d : α) (h : i < l.length) :
    l.getD i d ∈ l := by
  rw [getD_of_lt l d h]
  exact List.getElem_mem h

theorem exists_of_mem_zipWith {α β γ : Type} {f : α → β → γ} {l₁ : List α} {l₂ : List β}
    {c : γ} (h : c ∈ List.zipWith f l₁ l₂) : ∃ a b, a ∈ l₁ ∧ b ∈ l₂ ∧ c = f a b := by
  induction l₁ generalizing l₂ with
  | nil => simp at h
  | cons a l ih =>
    cases l₂ with
    | nil => simp at h
    | cons b l' =>
      rcases List.mem_cons.1 h with h | h
      · exact ⟨a, b, by simp, by simp, h⟩
      · obtain ⟨a2, b2, ha, hb, hc⟩ := ih h
        exact ⟨a2, b2, by simp [ha], by simp [hb], hc⟩

theorem length_flatten_of {l : List (List ℝ)} {c : ℕ} (h : ∀ r ∈ l, r.length = c) :
    l.flatten.length = l.length * c := by
  induction l with
  | nil => simp
  | cons a l ih =>
    simp only [List.flatten_cons, List.length_append, List.length_cons]
    rw [h a (by simp), ih (fun r hr => h r (by simp [hr]))]
    ring

theorem zipWith_sum_getD (f : ℝ → ℝ → ℝ) (a b : Vec) (h : a.length = b.length) :
    (List.zipWith f a b).sum = ∑ i ∈ Finset.range a.length, f (a.getD i 0) (b.getD i 0) := by
  induction a generalizing b with
  | nil => simp
  | cons x xs ih =>
    cases b with
    | nil => simp at h
    | cons y ys =>
      rw [List.zipWith_cons_cons, List.sum_cons, List.length_cons, Finset.sum_range_succ']
      simp only [List.getD_cons_succ, List.getD_cons_zero]
      rw [ih ys (by simpa using h)]
      ring

/-! ## Claims C10, C3, C6, C8 -/

/-- Claim C10: `generate_molecule` leaves all model parameters unchanged; the
only model state it alters is the train/eval flag, which `model.eval()` sets
to `false`.  The samples are the decodes of the `num_samples` independent
latent draws. -/
theorem C10_generate_molecule_frame (s : ModelState) (n : ℕ) (noise : ℕ → Mat) :
    (generate_molecule s n noise).2.params = s.params ∧
    (generate_molecule s n noise).2.training = false ∧
    (generate_molecule s n noise).1 =
      (List.range n).map (fun k => s.params.decode (noise k)) :=
  ⟨rfl, rfl, rfl⟩

/-- Claim C3: `VAE_GNN.forward` computes the latent mean/log-variance, the
sampled latent and the decoded output (so it runs, and fails, exactly when
that pipeline runs or fails), but it discards the decoded value and returns
Python's `None` (`some ()`) on every input on which the computation
succeeds. -/
theorem C3_forward_returns_none (M : VAE_GNN) (training : Bool) (keep : ℕ → Bool)
    (eps x : Mat) (t : EdgeIndex) (off : ℕ) :
    M.forward training keep eps x t off =
      (M.forwardOut training keep eps x t off).map (fun _ => ()) := by
  cases h : M.encode training keep x t off with
  | none => simp [VAE_GNN.forward, VAE_GNN.forwardOut, h]
  | some mo =>
    cases h2 : M.decode (VAE_GNN.reparameterize mo.1.1 mo.1.2 eps) with
    | none => simp [VAE_GNN.forward, VAE_GNN.forwardOut, h, h2]
    | some o => simp [VAE_GNN.forward, VAE_GNN.forwardOut, h, h2]

/-- Claim C6: for every RDKit molecule, the graph built by `mol_to_graph`
satisfies the MoleculeGraph invariant: every edge endpoint is a valid node
index, and for every bond both directed edges are present. -/
theorem C6_mol_to_graph_invariant (m : Molecule) (hm : m.wf) :
    (∀ e ∈ (mol_to_graph_edgeIndex m).cols,
        e.1 < (mol_to_graph_x m).length ∧ e.2 < (mol_to_graph_x m).length) ∧
    ∀ e ∈ (mol_to_graph_edgeIndex m).cols,
      (e.2, e.1) ∈ (mol_to_graph_edgeIndex m).cols := by
  have hlen : (mol_to_graph_x m).length = m.atoms.length := by
    simp only [mol_to_graph_x, List.length_map]
  constructor
  · intro e he
    rw [show (mol_to_graph_edgeIndex m).cols = molEdges m.bonds from rfl, molEdges,
      List.mem_flatMap] at he
    obtain ⟨b, hb, hin⟩ := he
    obtain ⟨h1, h2⟩ := hm b hb
    rw [hlen]
    rcases List.mem_cons.1 hin with h | h
    · subst h; exact ⟨h1, h2⟩
    · rcases List.mem_cons.1 h with h | h
      · subst h; exact ⟨h2, h1⟩
      · simp at h
  · intro e he
    rw [show (mol_to_graph_edgeIndex m).cols = molEdges m.bonds from rfl, molEdges,
      List.mem_flatMap] at he ⊢
    obtain ⟨b, hb, hin⟩ := he
    refine ⟨b, hb, ?_⟩
    rcases List.mem_cons.1 hin with h | h
    · subst h; simp
    · rcases List.mem_cons.1 h with h | h
      · subst h; simp
      · simp at h

/-- Witness for C6 at carbon monoxide (two atoms, one bond). -/
theorem C6_mol_to_graph_witness :
    molCO.wf ∧
    ((∀ e ∈ (mol_to_graph_edgeIndex molCO).cols,
        e.1 < (mol_to_graph_x molCO).length ∧ e.2 < (mol_to_graph_x molCO).length) ∧
     ∀ e ∈ (mol_to_graph_edgeIndex molCO).cols,
       (e.2, e.1) ∈ (mol_to_graph_edgeIndex molCO).cols) :=
  ⟨by decide, C6_mol_to_graph_invariant molCO (by decide)⟩

/-- Claim C8 (the failing input evaluated): on the graph `mol_to_graph`
builds for a molecule with a single atom and no bonds, `GraphVAE.forward`
raises for every parameter assignment: the empty bond list yields a 1-D
`edge_index` of shape `[0]`, which `MessagePassing.propagate`'s input
validation rejects (it demands shape `[2, E]`), so the encoder never reaches
the residual-only path the spec demands. -/
theorem C8_encoder_isolated_node_fails (P : GraphVAE) (training : Bool)
    (keep : ℕ → Bool) (off : ℕ) :
    P.forward training keep off (mol_to_graph_x molC) (mol_to_graph_edgeIndex molC) =
      none := by
  have hprop : ∀ Q K V, P.propagate training keep off Q K V (mol_to_graph_edgeIndex molC)
      = none := by
    intro Q K V
    rw [GraphVAE.propagate, if_neg]
    intro hc
    have : checkInput (mol_to_graph_edgeIndex molC) = false := rfl
    rw [this] at hc
    exact absurd hc.1 (by simp)
  cases h1 : P.lin_q.appMat (mol_to_graph_x molC) with
  | none => simp [GraphVAE.forward, h1]
  | some q =>
    cases h2 : P.lin_k.appMat (mol_to_graph_x molC) with
    | none => simp [GraphVAE.forward, h1, h2]
    | some k =>
      cases h3 : P.lin_v.appMat (mol_to_graph_x molC) with
      | none => simp [GraphVAE.forward, h1, h2, h3]
      | some v => simp [GraphVAE.forward, h1, h2, h3, hprop]

/-! ## Claim C5: reparameterize -/

theorem reparam_row_zero (mr lvr : Vec) (h : mr.length = lvr.length) :
    List.zipWith (fun m le => m + le.2 * Real.exp (0.5 * le.1)) mr
      (lvr.zip (mr.map (fun _ => (0 : ℝ)))) = mr := by
  induction mr generalizing lvr with
  | nil => simp
  | cons a l ih =>
    cases lvr with
    | nil => simp at h
    | cons b l2 =>
      simp only [List.map_cons, List.zip_cons_cons, List.zipWith_cons_cons]
      rw [ih l2 (by simpa using h)]
      simp

theorem reparam_zero_noise (mu logvar : Mat) (hn : mu.length = logvar.length)
    (hrow : ∀ p ∈ mu.zip logvar, p.1.length = p.2.length) :
    VAE_GNN.reparameterize mu logvar (mu.map (fun r => r.map (fun _ => (0 : ℝ)))) = mu := by
  induction mu generalizing logvar with
  | nil => simp [VAE_GNN.reparameterize]
  | cons mr ms ih =>
    cases logvar with
    | nil => simp at hn
    | cons lr ls =>
      show List.zipWith _ (mr :: ms) ((lr :: ls).zip ((mr :: ms).map _)) = mr :: ms
      simp only [List.map_cons, List.zip_cons_cons, List.zipWith_cons_cons]
      rw [reparam_row_zero mr lr (hrow (mr, lr) (by simp))]
      congr 1
      exact ih ls (by simpa using hn) (fun p hp => hrow p (by simp [hp]))

theorem reparam_entry (mu logvar eps : Mat) (i j : ℕ)
    (hl : logvar.length = mu.length) (he : eps.length = mu.length)
    (hi : i < mu.length)
    (hr : (logvar.getD i []).length = (mu.getD i []).length)
    (hre : (eps.getD i []).length = (mu.getD i []).length)
    (hj : j < (mu.getD i []).length) :
    ((VAE_GNN.reparameterize mu logvar eps).getD i []).getD j 0 =
      (mu.getD i []).getD j 0 +
        (eps.getD i []).getD j 0 * Real.exp (0.5 * (logvar.getD i []).getD j 0) := by
  have hil : i < logvar.length := by omega
  have hie : i < eps.length := by omega
  have hlen : i < (VAE_GNN.reparameterize mu logvar eps).length := by
    show i < (List.zipWith _ _ _).length
    rw [List.length_zipWith, List.length_zip]
    omega
  rw [getD_of_lt _ _ hi, getD_of_lt _ _ hil] at hr
  rw [getD_of_lt _ _ hi, getD_of_lt _ _ hie] at hre
  rw [getD_of_lt _ _ hi] at hj
  rw [getD_of_lt _ _ hlen, getD_of_lt _ _ hi, getD_of_lt _ _ hil, getD_of_lt _ _ hie]
  simp only [VAE_GNN.reparameterize]
  simp only [List.getElem_zipWith, List.getElem_zip]
  have hjz : j < (List.zipWith (fun m le => m + le.2 * Real.exp (0.5 * le.1)) mu[i]
      (logvar[i].zip eps[i])).length := by
    rw [List.length_zipWith, List.length_zip]
    omega
  have hja : j < eps[i].length := by omega
  have hjb : j < logvar[i].length := by omega
  rw [getD_of_lt _ _ hjz, List.getElem_zipWith, List.getElem_zip,
    getD_of_lt _ _ hj, getD_of_lt _ _ hja, getD_of_lt _ _ hjb]

/-- Claim C5: `VAE_GNN.reparameterize` returns `mean + noise * exp(0.5 *
log_variance)` entrywise (the noise having the same shape as the mean), and
with the noise forced to zero it returns exactly the mean. -/
theorem C5_reparameterize (mu logvar : Mat) (hn : mu.length = logvar.length)
    (hrow : ∀ p ∈ mu.zip logvar, p.1.length = p.2.length) :
    VAE_GNN.reparameterize mu logvar (mu.map (fun r => r.map (fun _ => (0 : ℝ)))) = mu ∧
    ∀ eps : Mat, ∀ i j : ℕ, eps.length = mu.length →
      (eps.getD i []).length = (mu.getD i []).length →
      i < mu.length → j < (mu.getD i []).length →
      ((VAE_GNN.reparameterize mu logvar eps).getD i []).getD j 0 =
        (mu.getD i []).getD j 0 +
          (eps.getD i []).getD j 0 * Real.exp (0.5 * (logvar.getD i []).getD j 0) := by
  refine ⟨reparam_zero_noise mu logvar hn hrow, ?_⟩
  intro eps i j he hre hi hj
  have hil : i < logvar.length := by omega
  have hr : (logvar.getD i []).length = (mu.getD i []).length := by
    have hz : i < (mu.zip logvar).length := by
      rw [List.length_zip]
      omega
    have hmem := hrow ((mu.zip logvar)[i]) (List.getElem_mem hz)
    rw [List.getElem_zip] at hmem
    rw [getD_of_lt _ _ hi, getD_of_lt _ _ hil]
    exact hmem.symm
  exact reparam_entry mu logvar eps i j (by omega) he hi hr hre hj

/-- Witness for C5: the zero-noise branch at a concrete mean and
log-variance. -/
theorem C5_reparameterize_witness :
    VAE_GNN.reparameterize [[1, 2]] [[3, 4]]
      (([[1, 2]] : Mat).map (fun r => r.map (fun _ => (0 : ℝ)))) = [[1, 2]] :=
  (C5_reparameterize [[1, 2]] [[3, 4]] (by decide) (by decide)).1

/-- Claim C4: `loss_function` returns the reconstruction term plus `β` times
the KL divergence term, with `β = 1.0` and
`KL = -0.5 * Σ_i (1 + logvar_i - mu_i² - exp logvar_i)` summed over the
latent dimensions. -/
theorem C4_loss_function (recon_x x mu logvar : Vec)
    (hr : recon_x.length = x.length) (hm : mu.length = logvar.length) :
    loss_function recon_x x mu logvar =
      some ((List.zipWith (fun zi ti => Real.log (1 + Real.exp zi) - zi * ti) recon_x x).sum
        + 1 * (-(1 / 2) * ∑ i ∈ Finset.range mu.length,
            (1 + logvar.getD i 0 - (mu.getD i 0) ^ 2 - Real.exp (logvar.getD i 0)))) := by
  simp only [loss_function, bceWithLogitsSum]
  rw [if_pos hr]
  simp only [Option.bind_eq_bind, Option.some_bind]
  congr 1
  have hsum : (List.zipWith (fun l m => 1 + l - m ^ 2 - Real.exp l) logvar mu).sum
      = ∑ i ∈ Finset.range logvar.length,
          (1 + logvar.getD i 0 - (mu.getD i 0) ^ 2 - Real.exp (logvar.getD i 0)) :=
    zipWith_sum_getD (fun l m => 1 + l - m ^ 2 - Real.exp l) logvar mu (by omega)
  rw [hsum, ← hm]
  norm_num

/-- Witness for C4 at concrete one-dimensional tensors. -/
theorem C4_loss_function_witness :
    loss_function [0] [0] [0] [0] =
      some ((List.zipWith (fun zi ti => Real.log (1 + Real.exp zi) - zi * ti)
            ([0] : Vec) ([0] : Vec)).sum
        + 1 * (-(1 / 2) * ∑ i ∈ Finset.range (List.length ([0] : Vec)),
            (1 + List.getD ([0] : Vec) i 0 - (List.getD ([0] : Vec) i 0) ^ 2
              - Real.exp (List.getD ([0] : Vec) i 0)))) :=
  C4_loss_function [0] [0] [0] [0] (by decide) (by decide)

/-! ## Shape lemmas for the GraphVAE layer -/

theorem LinearP.appMat_some {p : LinearP} {din dout : ℕ} {x : Mat}
    (hp : p.wf din dout) (hx : ∀ r ∈ x, r.length = din) :
    ∃ y, p.appMat x = some y ∧ y.length = x.length ∧ ∀ r ∈ y, r.length = dout := by
  obtain ⟨hw, hrw, hb⟩ := hp
  have hcond : x.all (fun r => p.w.all (fun wr => wr.length == r.length)) = true := by
    rw [List.all_eq_true]
    intro r hrm
    rw [List.all_eq_true]
    intro wr hwr
    simp [hrw wr hwr, hx r hrm]
  refine ⟨_, by rw [LinearP.appMat, if_pos hcond], by simp, ?_⟩
  intro r hrm
  rw [List.mem_map] at hrm
  obtain ⟨r0, _, rfl⟩ := hrm
  simp [List.length_zipWith, hw, hb]

theorem viewHeads_shape {heads c : ℕ} {row : Vec} (h : row.length = heads * c) :
    (viewHeads heads c row).length = heads ∧ ∀ r ∈ viewHeads heads c row, r.length = c := by
  constructor
  · simp [viewHeads]
  · intro r hr
    rw [viewHeads, List.mem_map] at hr
    obtain ⟨hh, hmem, rfl⟩ := hr
    rw [List.mem_range] at hmem
    simp only [List.length_take, List.length_drop, h]
    have h1 : (hh + 1) * c ≤ heads * c := Nat.mul_le_mul_right c hmem
    rw [Nat.succ_mul] at h1
    omega

theorem zeroHeads_shape (P : GraphVAE) :
    (zeroHeads P).length = P.heads ∧ ∀ r ∈ zeroHeads P, r.length = P.out_channels := by
  refine ⟨by simp [zeroHeads], ?_⟩
  intro r hr
  rw [zeroHeads] at hr
  rw [List.eq_of_mem_replicate hr]
  simp

theorem matAdd_shape {a b : Mat} {hds c : ℕ}
    (ha : a.length = hds ∧ ∀ r ∈ a, r.length = c)
    (hb : b.length = hds ∧ ∀ r ∈ b, r.length = c) :
    (matAdd a b).length = hds ∧ ∀ r ∈ matAdd a b, r.length = c := by
  constructor
  · simp [matAdd, ha.1, hb.1]
  · intro r hr
    obtain ⟨ra, rb, hra, hrb, rfl⟩ := exists_of_mem_zipWith hr
    simp [List.length_zipWith, ha.2 ra hra, hb.2 rb hrb]

theorem foldr_matAdd_shape {msgs : List Mat} {P : GraphVAE}
    (h : ∀ m ∈ msgs, m.length = P.heads ∧ ∀ r ∈ m, r.length = P.out_channels) :
    (msgs.foldr matAdd (zeroHeads P)).length = P.heads ∧
      ∀ r ∈ msgs.foldr matAdd (zeroHeads P), r.length = P.out_channels := by
  induction msgs with
  | nil => exact zeroHeads_shape P
  | cons m ms ih =>
    exact matAdd_shape (h m (by simp)) (ih (fun m2 hm2 => h m2 (by simp [hm2])))

theorem message_shape {P : GraphVAE} {training : Bool} {keep : ℕ → Bool} {off e : ℕ}
    {Qi Kj Vj : Mat}
    (hq : Qi.length = P.heads) (hk : Kj.length = P.heads)
    (hv : Vj.length = P.heads ∧ ∀ r ∈ Vj, r.length = P.out_channels) :
    (P.message training keep off e Qi Kj Vj).length = P.heads ∧
      ∀ r ∈ P.message training keep off e Qi Kj Vj, r.length = P.out_channels := by
  constructor
  · simp [GraphVAE.message, softmax, List.length_zipWith, hq, hk, hv.1]
  · intro r hr
    rw [GraphVAE.message] at hr
    obtain ⟨s, v, hs, hvm, rfl⟩ := exists_of_mem_zipWith hr
    simp [hv.2 v hvm]

theorem propagate_some_shape {P : GraphVAE} (training : Bool) (keep : ℕ → Bool) (off : ℕ)
    {Q K V : List Mat} {t : EdgeIndex}
    (hchk : checkInput t = true)
    (hvld : ∀ ji ∈ t.cols, ji.1 < K.length ∧ ji.1 < V.length ∧ ji.2 < Q.length)
    (hQ : ∀ m ∈ Q, m.length = P.heads)
    (hK : ∀ m ∈ K, m.length = P.heads)
    (hV : ∀ m ∈ V, m.length = P.heads ∧ ∀ r ∈ m, r.length = P.out_channels) :
    ∃ agg, P.propagate training keep off Q K V t = some agg ∧
      agg.length = Q.length ∧
      ∀ m ∈ agg, m.length = P.heads ∧ ∀ r ∈ m, r.length = P.out_channels := by
  rw [GraphVAE.propagate, if_pos ⟨hchk, hvld⟩]
  refine ⟨_, rfl, by simp, ?_⟩
  intro m hm
  rw [List.mem_map] at hm
  obtain ⟨i, _, rfl⟩ := hm
  apply foldr_matAdd_shape
  intro msg hmsg
  rw [List.mem_map] at hmsg
  obtain ⟨ec, hec, rfl⟩ := hmsg
  have hcol : ec.2 ∈ t.cols := by
    have h1 := List.mem_map_of_mem Prod.snd (List.mem_of_mem_filter hec)
    rw [List.enum_map_snd] at h1
    exact h1
  obtain ⟨hb1, hb2, hb3⟩ := hvld ec.2 hcol
  exact message_shape (hQ _ (getD_mem_of_lt [] hb3)) (hK _ (getD_mem_of_lt [] hb1))
    (hV _ (getD_mem_of_lt [] hb2))

theorem residAdd_some_shape {o x : Mat} {c din : ℕ}
    (hlen : o.length = x.length)
    (ho : ∀ r ∈ o, r.length = c) (hx : ∀ r ∈ x, r.length = din)
    (hd : din = c ∨ din = 1) :
    ∃ y, residAdd o x = some y ∧ y.length = o.length ∧ ∀ r ∈ y, r.length = c := by
  have hcond : ∀ p ∈ o.zip x, p.1.length = p.2.length ∨ p.2.length = 1 ∨ p.1.length = 1 := by
    intro p hp
    obtain ⟨h1, h2⟩ := List.of_mem_zip hp
    rcases hd with hd | hd
    · left
      rw [ho _ h1, hx _ h2, hd]
    · right; left
      rw [hx _ h2, hd]
  rw [residAdd, if_pos ⟨hlen, hcond⟩]
  refine ⟨_, rfl, by simp [List.length_zipWith, hlen], ?_⟩
  intro r hr
  obtain ⟨a, b, ha, hb, rfl⟩ := exists_of_mem_zipWith hr
  rw [addBroadcast]
  rcases hd with hd | hd
  · rw [if_pos (by rw [ho _ ha, hx _ hb, hd])]
    simp [List.length_zipWith, ho _ ha, hx _ hb, hd]
  · by_cases hcd : c = 1
    · rw [if_pos (by rw [ho _ ha, hx _ hb, hd, hcd])]
      simp [List.length_zipWith, ho _ ha, hx _ hb, hd, hcd]
    · rw [if_neg (by rw [ho _ ha, hx _ hb, hd]; omega), if_pos (by rw [hx _ hb, hd])]
      simp [ho _ ha]

theorem lnMat_some_shape {p : LayerNormP} {y : Mat} {c : ℕ}
    (hg : p.gamma.length = c) (hb : p.beta.length = c) (hy : ∀ r ∈ y, r.length = c) :
    ∃ z, p.appMat y = some z ∧ z.length = y.length ∧ ∀ r ∈ z, r.length = c := by
  have hcond : y.all (fun r => r.length == p.gamma.length) = true := by
    rw [List.all_eq_true]
    intro r hr
    simp [hy r hr, hg]
  rw [LayerNormP.appMat, if_pos hcond]
  refine ⟨_, rfl, by simp, ?_⟩
  intro r hr
  rw [List.mem_map] at hr
  obtain ⟨r0, hr0, rfl⟩ := hr
  simp [LayerNormP.row, List.length_zipWith, List.length_zip, hy r0 hr0, hg, hb]

theorem GraphVAE.forward_some_shape {P : GraphVAE} {din : ℕ} {x : Mat} {t : EdgeIndex}
    (hP : P.wf din) (hx : ∀ r ∈ x, r.length = din)
    (ht : checkInput t = true)
    (he : ∀ ji ∈ t.cols, ji.1 < x.length ∧ ji.2 < x.length)
    (hd : din = P.out_channels ∨ din = 1) (training : Bool) (keep : ℕ → Bool) (off : ℕ) :
    ∃ y off2, P.forward training keep off x t = some (y, off2) ∧
      y.length = x.length ∧ ∀ r ∈ y, r.length = P.out_channels := by
  obtain ⟨hq, hk, hv, hout, hg, hb⟩ := hP
  obtain ⟨q, hq1, hq2, hq3⟩ := LinearP.appMat_some hq hx
  obtain ⟨k, hk1, hk2, hk3⟩ := LinearP.appMat_some hk hx
  obtain ⟨v, hv1, hv2, hv3⟩ := LinearP.appMat_some hv hx
  have hQ : ∀ m ∈ q.map (viewHeads P.heads P.out_channels), m.length = P.heads := by
    intro m hm
    rw [List.mem_map] at hm
    obtain ⟨r, hr, rfl⟩ := hm
    exact (viewHeads_shape (hq3 r hr)).1
  have hK : ∀ m ∈ k.map (viewHeads P.heads P.out_channels), m.length = P.heads := by
    intro m hm
    rw [List.mem_map] at hm
    obtain ⟨r, hr, rfl⟩ := hm
    exact (viewHeads_shape (hk3 r hr)).1
  have hV : ∀ m ∈ v.map (viewHeads P.heads P.out_channels),
      m.length = P.heads ∧ ∀ r ∈ m, r.length = P.out_channels := by
    intro m hm
    rw [List.mem_map] at hm
    obtain ⟨r, hr, rfl⟩ := hm
    exact ⟨(viewHeads_shape (hv3 r hr)).1, (viewHeads_shape (hv3 r hr)).2⟩
  have hvld : ∀ ji ∈ t.cols, ji.1 < (k.map (viewHeads P.heads P.out_channels)).length ∧
      ji.1 < (v.map (viewHeads P.heads P.out_channels)).length ∧
      ji.2 < (q.map (viewHeads P.heads P.out_channels)).length := by
    intro ji hji
    obtain ⟨h1, h2⟩ := he ji hji
    simp only [List.length_map, hk2, hv2, hq2]
    exact ⟨h1, h1, h2⟩
  obtain ⟨agg, hagg, hagg1, hagg2⟩ :=
    propagate_some_shape training keep off ht hvld hQ hK hV
  have hflat : ∀ r ∈ agg.map List.flatten, r.length = P.heads * P.out_channels := by
    intro r hr
    rw [List.mem_map] at hr
    obtain ⟨m, hm, rfl⟩ := hr
    obtain ⟨hm1, hm2⟩ := hagg2 m hm
    rw [length_flatten_of hm2, hm1]
  obtain ⟨o, ho1, ho2, ho3⟩ := LinearP.appMat_some hout hflat
  have holen : o.length = x.length := by
    rw [ho2, List.length_map, hagg1, List.length_map, hq2]
  obtain ⟨res, hres1, hres2, hres3⟩ := residAdd_some_shape holen ho3 hx hd
  obtain ⟨y, hy1, hy2, hy3⟩ := lnMat_some_shape hg hb hres3
  refine ⟨y, off + (if training then t.cols.length * P.heads else 0), ?_, ?_, hy3⟩
  · simp only [GraphVAE.forward, Option.bind_eq_bind, hq1, hk1, hv1, Option.some_bind]
    rw [hagg]
    simp only [Option.some_bind]
    rw [ho1]
    simp only [Option.some_bind]
    rw [hres1]
    simp only [Option.some_bind]
    rw [hy1]
    simp only [Option.some_bind]
    rfl
  · rw [hy2, hres2, holen]

/-! ## Claims C2 and C9 -/

/-- Claim C2 (amended): for every valid MoleculeGraph — in-range, symmetric
edges presented as a well-formed `[2, E]` tensor — whose feature dimension
`din` matches the layer's `in_channels`, one application of
`GraphVAE.forward` succeeds and returns refined node features of shape
`N × out_channels`, regardless of `N`, provided `din = out_channels` or
`din = 1` (broadcastable against the residual addition). -/
theorem C2_encoder_shape (P : GraphVAE) (din : ℕ) (x : Mat) (t : EdgeIndex)
    (training : Bool) (keep : ℕ → Bool) (off : ℕ)
    (hP : P.wf din) (hx : ∀ r ∈ x, r.length = din)
    (ht : t.shape = [2, t.cols.length])
    (he : ∀ ji ∈ t.cols, ji.1 < x.length ∧ ji.2 < x.length)
    (_hsym : ∀ ji ∈ t.cols, (ji.2, ji.1) ∈ t.cols)
    (hd : din = P.out_channels ∨ din = 1) :
    ∃ y off2, P.forward training keep off x t = some (y, off2) ∧
      y.length = x.length ∧ ∀ r ∈ y, r.length = P.out_channels :=
  GraphVAE.forward_some_shape hP hx (by unfold checkInput; rw [ht]) he hd training keep off

/-- Counterexample to C2 as stated: a valid two-node MoleculeGraph with
feature dimension `D_in = 2` fed to a `GraphVAE(2, 3)` layer (the
constructor accepts it); the forward pass raises at the residual addition
`out + x`, so it does not succeed for every valid graph. -/
theorem C2_encoder_shape_counterexample :
    cx2P.forward false (fun _ => true) 0 cx2x cx2T = none := by
  rfl

/-- Witness for C2 (amended) at a `GraphVAE(1, 2)` layer on a two-node
graph with one bond. -/
theorem C2_encoder_shape_witness :
    ∃ y off2, w2P.forward false (fun _ => true) 0 w2x cx2T = some (y, off2) ∧
      y.length = w2x.length ∧ ∀ r ∈ y, r.length = w2P.out_channels :=
  C2_encoder_shape w2P 1 w2x cx2T false (fun _ => true) 0 (by decide) (by decide)
    (by decide) (by decide) (by decide) (by decide)

theorem forward_none_of_mismatch {P : GraphVAE} {din : ℕ} {x : Mat} {t : EdgeIndex}
    (hP : P.wf din) (hx : ∀ r ∈ x, r.length = din) (hN : x ≠ [])
    (ht : checkInput t = true)
    (he : ∀ ji ∈ t.cols, ji.1 < x.length ∧ ji.2 < x.length)
    (hd1 : din ≠ P.out_channels) (hd2 : din ≠ 1)
    (training : Bool) (keep : ℕ → Bool) (off : ℕ) :
    P.forward training keep off x t = none := by
  obtain ⟨hq, hk, hv, hout, hg, hb⟩ := hP
  obtain ⟨q, hq1, hq2, hq3⟩ := LinearP.appMat_some hq hx
  obtain ⟨k, hk1, hk2, hk3⟩ := LinearP.appMat_some hk hx
  obtain ⟨v, hv1, hv2, hv3⟩ := LinearP.appMat_some hv hx
  have hQ : ∀ m ∈ q.map (viewHeads P.heads P.out_channels), m.length = P.heads := by
    intro m hm
    rw [List.mem_map] at hm
    obtain ⟨r, hr, rfl⟩ := hm
    exact (viewHeads_shape (hq3 r hr)).1
  have hK : ∀ m ∈ k.map (viewHeads P.heads P.out_channels), m.length = P.heads := by
    intro m hm
    rw [List.mem_map] at hm
    obtain ⟨r, hr, rfl⟩ := hm
    exact (viewHeads_shape (hk3 r hr)).1
  have hV : ∀ m ∈ v.map (viewHeads P.heads P.out_channels),
      m.length = P.heads ∧ ∀ r ∈ m, r.length = P.out_channels := by
    intro m hm
    rw [List.mem_map] at hm
    obtain ⟨r, hr, rfl⟩ := hm
    exact ⟨(viewHeads_shape (hv3 r hr)).1, (viewHeads_shape (hv3 r hr)).2⟩
  have hvld : ∀ ji ∈ t.cols, ji.1 < (k.map (viewHeads P.heads P.out_channels)).length ∧
      ji.1 < (v.map (viewHeads P.heads P.out_channels)).length ∧
      ji.2 < (q.map (viewHeads P.heads P.out_channels)).length := by
    intro ji hji
    obtain ⟨h1, h2⟩ := he ji hji
    simp only [List.length_map, hk2, hv2, hq2]
    exact ⟨h1, h1, h2⟩
  obtain ⟨agg, hagg, hagg1, hagg2⟩ :=
    propagate_some_shape training keep off ht hvld hQ hK hV
  have hflat : ∀ r ∈ agg.map List.flatten, r.length = P.heads * P.out_channels := by
    intro r hr
    rw [List.mem_map] at hr
    obtain ⟨m, hm, rfl⟩ := hr
    obtain ⟨hm1, hm2⟩ := hagg2 m hm
    rw [length_flatten_of hm2, hm1]
  obtain ⟨o, ho1, ho2, ho3⟩ := LinearP.appMat_some hout hflat
  have holen : o.length = x.length := by
    rw [ho2, List.length_map, hagg1, List.length_map, hq2]
  obtain ⟨x0, xs, hxeq⟩ := List.exists_cons_of_ne_nil hN
  have hoN : o ≠ [] := by
    intro h0
    rw [h0, hxeq] at holen
    simp at holen
  obtain ⟨o0, os, hoeq⟩ := List.exists_cons_of_ne_nil hoN
  have hx0 : x0.length = din := hx x0 (by rw [hxeq]; simp)
  have ho0 : o0.length = P.out_channels := ho3 o0 (by rw [hoeq]; simp)
  by_cases hc1 : P.out_channels = 1
  · -- residual broadcast succeeds the other way, then LayerNorm rejects
    have hcond : o.length = x.length ∧
        ∀ p ∈ o.zip x, p.1.length = p.2.length ∨ p.2.length = 1 ∨ p.1.length = 1 :=
      ⟨holen, fun p hp => Or.inr (Or.inr (by rw [ho3 p.1 (List.of_mem_zip hp).1, hc1]))⟩
    have hresv : residAdd o x = some (List.zipWith addBroadcast o x) := by
      rw [residAdd, if_pos hcond]
    have hlnnone : P.norm.appMat (List.zipWith addBroadcast o x) = none := by
      rw [LayerNormP.appMat, if_neg]
      intro hall
      rw [List.all_eq_true] at hall
      have hmem : addBroadcast o0 x0 ∈ List.zipWith addBroadcast o x := by
        rw [hoeq, hxeq]
        simp
      have hlen2 := hall _ hmem
      rw [addBroadcast, if_neg (by rw [ho0, hx0, hc1]; omega),
        if_neg (by rw [hx0]; exact hd2)] at hlen2
      simp only [List.length_map, hx0, hg, hc1, beq_iff_eq] at hlen2
      exact hd2 hlen2
    simp only [GraphVAE.forward, Option.bind_eq_bind, hq1, hk1, hv1, Option.some_bind]
    rw [hagg]
    simp only [Option.some_bind]
    rw [ho1]
    simp only [Option.some_bind]
    rw [hresv]
    simp only [Option.some_bind]
    rw [hlnnone]
    rfl
  · -- the residual addition itself rejects
    have hres : residAdd o x = none := by
      rw [residAdd, if_neg]
      intro hcond
      have hp : (o0, x0) ∈ o.zip x := by
        rw [hoeq, hxeq]
        simp
      rcases hcond.2 (o0, x0) hp with h | h | h
      · rw [ho0, hx0] at h
        exact hd1 h.symm
      · rw [hx0] at h
        exact hd2 h
      · rw [ho0] at h
        exact hc1 h
    simp only [GraphVAE.forward, Option.bind_eq_bind, hq1, hk1, hv1, Option.some_bind]
    rw [hagg]
    simp only [Option.some_bind]
    rw [ho1]
    simp only [Option.some_bind]
    rw [hres]
    rfl

/-- Claim C9: on a nonempty graph with valid edges, `GraphVAE.forward`
succeeds exactly when the node-feature dimension `din` equals `out_channels`
or is broadcastable to it (`din = 1`); for any other `din` the residual
addition `out + x` or the LayerNorm over `out_channels` raises, even though
the constructor accepted the `(in_channels, out_channels)` pair. -/
theorem C9_forward_requires_broadcastable (P : GraphVAE) (din : ℕ) (x : Mat)
    (t : EdgeIndex) (training : Bool) (keep : ℕ → Bool) (off : ℕ)
    (hP : P.wf din) (hx : ∀ r ∈ x, r.length = din) (hN : x ≠ [])
    (ht : t.shape = [2, t.cols.length])
    (he : ∀ ji ∈ t.cols, ji.1 < x.length ∧ ji.2 < x.length) :
    (∃ yo, P.forward training keep off x t = some yo) ↔
      (din = P.out_channels ∨ din = 1) := by
  constructor
  · intro hyo
    by_contra hnd
    push_neg at hnd
    rw [forward_none_of_mismatch hP hx hN (by unfold checkInput; rw [ht]) he hnd.1 hnd.2
      training keep off] at hyo
    exact absurd hyo.choose_spec (by simp)
  · intro hd
    obtain ⟨y, off2, hfy, _, _⟩ := GraphVAE.forward_some_shape hP hx
      (by unfold checkInput; rw [ht]) he hd training keep off
    exact ⟨(y, off2), hfy⟩

/-- Witness for C9: at a `GraphVAE(2, 3)` layer on a two-node graph with
feature dimension 2, the equivalence specializes to `(∃ r, forward = some r)
↔ (2 = 3 ∨ 2 = 1)`, i.e. the forward pass fails. -/
theorem C9_forward_requires_broadcastable_witness :
    ¬ ∃ yo, cx2P.forward false (fun _ => true) 0 cx2x cx2T = some yo := by
  intro hyo
  rcases (C9_forward_requires_broadcastable cx2P 2 cx2x cx2T false (fun _ => true) 0
      (by decide) (by decide) (by decide) (by decide) (by decide)).1 hyo with h | h
  · exact absurd h (by decide)
  · exact absurd h (by decide)

/-! ## Claim C1: which axis the softmax normalizes -/

theorem message_eval (P : GraphVAE) (keep : ℕ → Bool) (off e : ℕ) (Qi Kj Vj : Mat) :
    P.message false keep off e Qi Kj Vj =
      List.zipWith (fun s v => v.map (fun u => s * u))
        (softmax (List.zipWith
          (fun qh kh => dot qh kh / Real.sqrt (P.out_channels : ℝ)) Qi Kj))
        Vj := by
  rw [GraphVAE.message]
  simp only [dropoutVal, Bool.false_eq_true, if_false]
  congr 1
  exact List.enum_map_snd _

theorem enumFrom_filter_snd_map {α γ : Type} (p : α → Bool) (f : α → γ) :
    ∀ (n : ℕ) (l : List α),
      ((List.enumFrom n l).filter (fun ec => p ec.2)).map (fun ec => f ec.2) =
        (l.filter p).map f := by
  intro n l
  induction l generalizing n with
  | nil => simp
  | cons a l ih =>
    rw [List.enumFrom_cons, List.filter_cons, List.filter_cons]
    by_cases hp : p a
    · simp only [hp, if_true, List.map_cons]
      rw [ih]
    · simp only [hp, Bool.false_eq_true, if_false]
      rw [ih]

/-- Claim C1 (amended): for every directed edge the unnormalized score
`(Q_i · K_j)/sqrt(out_channels)` is normalized by a softmax taken across the
attention heads of that one edge (`dim=1` of the `E × H × 1` score tensor),
not per destination node over its incoming edges; the aggregated message of
a node is the sum, over its incoming edges, of the normalized score times
the value vector (stated in eval mode, where dropout is the identity). -/
theorem C1_attention_aggregation (P : GraphVAE) (keep : ℕ → Bool) (off : ℕ)
    (Q K V : List Mat) (t : EdgeIndex)
    (hchk : checkInput t = true)
    (hvld : ∀ ji ∈ t.cols, ji.1 < K.length ∧ ji.1 < V.length ∧ ji.2 < Q.length) :
    P.propagate false keep off Q K V t =
      some (headSoftmaxAggregate P Q K V t.cols) := by
  rw [GraphVAE.propagate, if_pos ⟨hchk, hvld⟩, headSoftmaxAggregate]
  congr 1
  refine List.map_congr_left ?_
  intro i _
  congr 1
  have hmsg : ∀ ec ∈ t.cols.enum.filter (fun ec => ec.2.2 == i),
      P.message false keep off ec.1
          (Q.getD ec.2.2 []) (K.getD ec.2.1 []) (V.getD ec.2.1 []) =
        (fun ji : ℕ × ℕ => List.zipWith (fun s v => v.map (fun u => s * u))
          (softmax (List.zipWith
            (fun qh kh => dot qh kh / Real.sqrt (P.out_channels : ℝ))
            (Q.getD ji.2 []) (K.getD ji.1 []))) (V.getD ji.1 [])) ec.2 := by
    intro ec _
    exact message_eval P keep off ec.1 _ _ _
  rw [List.map_congr_left hmsg]
  exact enumFrom_filter_snd_map (fun ji : ℕ × ℕ => ji.2 == i)
    (fun ji : ℕ × ℕ => List.zipWith (fun s v => v.map (fun u => s * u))
      (softmax (List.zipWith (fun qh kh => dot qh kh / Real.sqrt (P.out_channels : ℝ))
        (Q.getD ji.2 []) (K.getD ji.1 []))) (V.getD ji.1 [])) 0 t.cols

/-- Witness for C1 (amended): the layer's aggregation on the 3-node path
with one head and all-zero scores matches the per-edge-head softmax form. -/
theorem C1_attention_witness :
    cxAttnP.propagate false (fun _ => true) 0 cxQ cxQ cxV pathT =
      some (headSoftmaxAggregate cxAttnP cxQ cxQ cxV pathT.cols) :=
  C1_attention_aggregation cxAttnP (fun _ => true) 0 cxQ cxQ cxV pathT
    (by decide) (by decide)

/-- Counterexample to C1 as stated: one head, all raw scores zero, on the
3-node path.  The code's `torch.softmax(score, dim=1)` normalizes over the
single head, weighting every edge by 1, so node 1 (two incoming edges with
value vector `[1]`) aggregates `[2]`; the spec's per-destination softmax
would weight each of the two incoming edges by 1/2 and aggregate `[1]`. -/
theorem C1_attention_counterexample :
    cxAttnP.propagate false (fun _ => true) 0 cxQ cxQ cxV pathT ≠
      some (specAttentionAggregate cxAttnP cxQ cxQ cxV pathT.cols) := by
  intro h
  simp [cxAttnP, cxQ, cxV, pathT, GraphVAE.propagate, specAttentionAggregate,
    GraphVAE.message, zeroHeads, matAdd, softmax, dropoutVal, dot, checkInput,
    List.range_succ, List.enum, List.enumFrom, Real.exp_zero, Real.sqrt_one] at h
  norm_num at h

/-! ## Claim C7: determinism of the encode path -/

theorem propagate_eval_irrel (P : GraphVAE) (k1 k2 : ℕ → Bool) (o1 o2 : ℕ)
    (Q K V : List Mat) (t : EdgeIndex) :
    P.propagate false k1 o1 Q K V t = P.propagate false k2 o2 Q K V t := by
  rw [GraphVAE.propagate, GraphVAE.propagate]
  by_cases hc : checkInput t ∧
      ∀ ji ∈ t.cols, ji.1 < K.length ∧ ji.1 < V.length ∧ ji.2 < Q.length
  · rw [if_pos hc, if_pos hc]
    exact rfl
  · rw [if_neg hc, if_neg hc]

theorem gvForward_eval (P : GraphVAE) (k1 k2 : ℕ → Bool) (o1 o2 : ℕ)
    (x : Mat) (t : EdgeIndex) :
    (P.forward false k1 o1 x t).map Prod.fst =
      (P.forward false k2 o2 x t).map Prod.fst := by
  simp only [GraphVAE.forward, Option.bind_eq_bind]
  cases hq : P.lin_q.appMat x with
  | none => rfl
  | some q =>
    simp only [Option.some_bind]
    cases hk : P.lin_k.appMat x with
    | none => rfl
    | some k =>
      simp only [Option.some_bind]
      cases hv : P.lin_v.appMat x with
      | none => rfl
      | some v =>
        simp only [Option.some_bind]
        rw [propagate_eval_irrel P k1 k2 o1 o2]
        cases hp : P.propagate false k2 o2 (q.map (viewHeads P.heads P.out_channels))
            (k.map (viewHeads P.heads P.out_channels))
            (v.map (viewHeads P.heads P.out_channels)) t with
        | none => rfl
        | some agg =>
          simp only [Option.some_bind]
          cases ho : P.lin_out.appMat (agg.map List.flatten) with
          | none => rfl
          | some o =>
            simp only [Option.some_bind]
            cases hr : residAdd o x with
            | none => rfl
            | some res =>
              simp only [Option.some_bind]
              cases hn : P.norm.appMat res with
              | none => rfl
              | some y => rfl

theorem encode_layers_eval (layers : List GraphVAE) (t : EdgeIndex) (k1 k2 : ℕ → Bool) :
    ∀ (x : Mat) (o1 o2 : ℕ),
      (layers.foldlM
          (fun (acc : Mat × ℕ) (L : GraphVAE) => L.forward false k1 acc.2 acc.1 t)
          (x, o1)).map Prod.fst =
      (layers.foldlM
          (fun (acc : Mat × ℕ) (L : GraphVAE) => L.forward false k2 acc.2 acc.1 t)
          (x, o2)).map Prod.fst := by
  induction layers with
  | nil => intro x o1 o2; rfl
  | cons L ls ih =>
    intro x o1 o2
    rw [List.foldlM_cons, List.foldlM_cons]
    have h := gvForward_eval L k1 k2 o1 o2 x t
    cases h1 : L.forward false k1 o1 x t with
    | none =>
      cases h2 : L.forward false k2 o2 x t with
      | none => rfl
      | some a2 =>
        rw [h1, h2] at h
        simp at h
    | some a1 =>
      cases h2 : L.forward false k2 o2 x t with
      | none =>
        rw [h1, h2] at h
        simp at h
      | some a2 =>
        rw [h1, h2] at h
        obtain ⟨y1, u1⟩ := a1
        obtain ⟨y2, u2⟩ := a2
        simp only [Option.map_some'] at h
        have hy : y1 = y2 := by simpa using h
        subst hy
        simp only [Option.bind_eq_bind, Option.some_bind]
        exact ih y1 u1 u2

/-- Claim C7 (amended): with the model in eval mode (dropout disabled) the
encode path is deterministic — its `(mu, logvar)` result does not depend on
the random stream or on how much of it was consumed before the call, so two
successive `VAE_GNN.encode` calls on a fixed graph with fixed parameters
return identical output.  (In the default training mode this fails: the
`nn.Dropout` inside `GraphVAE.message` injects randomness into the encode
path, see the counterexample.) -/
theorem C7_encode_eval_deterministic (M : VAE_GNN) (k1 k2 : ℕ → Bool)
    (x : Mat) (t : EdgeIndex) (o1 o2 : ℕ) :
    (M.encode false k1 x t o1).map Prod.fst =
      (M.encode false k2 x t o2).map Prod.fst := by
  simp only [VAE_GNN.encode, Option.bind_eq_bind]
  have h := encode_layers_eval M.layers t k1 k2 x o1 o2
  cases h1 : M.layers.foldlM
      (fun (acc : Mat × ℕ) (L : GraphVAE) => L.forward false k1 acc.2 acc.1 t) (x, o1) with
  | none =>
    cases h2 : M.layers.foldlM
        (fun (acc : Mat × ℕ) (L : GraphVAE) => L.forward false k2 acc.2 acc.1 t) (x, o2) with
    | none => rfl
    | some b2 =>
      rw [h1, h2] at h
      simp at h
  | some b1 =>
    cases h2 : M.layers.foldlM
        (fun (acc : Mat × ℕ) (L : GraphVAE) => L.forward false k2 acc.2 acc.1 t) (x, o2) with
    | none =>
      rw [h1, h2] at h
      simp at h
    | some b2 =>
      rw [h1, h2] at h
      obtain ⟨y1, u1⟩ := b1
      obtain ⟨y2, u2⟩ := b2
      simp only [Option.map_some'] at h
      have hy : y1 = y2 := by simpa using h
      subst hy
      simp only [Option.some_bind]
      cases hmu : M.fc_mu.appMat y1 with
      | none => rfl
      | some mu =>
        simp only [Option.some_bind]
        cases hlv : M.fc_logvar.appMat y1 with
        | none => rfl
        | some lv => rfl

/-- Counterexample to C7 as stated: with the fixed 3-node/2-bond graph,
fixed parameters `M7` (a `VAE_GNN(1, 2, 1, 1)` instance) and the fixed
Bernoulli stream `keep7` (as drawn under a fixed seed), the model in its
default training mode gives two successive `encode` calls different
outputs: the first call's dropout keeps all 16 scores, the second call's
drops all of them. -/
theorem C7_encode_counterexample :
    M7.encodeTwice true keep7 x7 pathT ≠
      (M7.encodeTwice true keep7 x7 pathT).map (fun r => (r.1, r.1)) := by
  intro h
  simp [VAE_GNN.encodeTwice, VAE_GNN.encode, M7, L7, x7, pathT, keep7,
    GraphVAE.forward, GraphVAE.propagate, GraphVAE.message, LinearP.appMat,
    residAdd, addBroadcast, LayerNormP.appMat, LayerNormP.row, viewHeads, zeroHeads,
    matAdd, softmax, dropoutVal, dot, checkInput, lnEps,
    List.range_succ, List.enum, List.enumFrom, List.foldlM_cons, List.foldlM_nil,
    Real.exp_zero, Real.sqrt_one, div_eq_zero_iff, Real.sqrt_eq_zero'] at h
  norm_num at h
  obtain ⟨h1, -, -⟩ := h
  have hp : 0 < Real.sqrt 625081 / Real.sqrt 8100000 :=
    div_pos (Real.sqrt_pos.mpr (by norm_num)) (Real.sqrt_pos.mpr (by norm_num))
  have hx : 0 < 5 / 18 / (Real.sqrt 625081 / Real.sqrt 8100000) :=
    div_pos (by norm_num) hp
  exact ne_of_gt hx h1.symm
